import Mathlib

/-!
Shallow embedding of the PyCG core machinery (pycg/machinery/{pointers,
definitions, classes, imports, callgraph}.py) and proofs about the frozen
claims.  Python dicts are modelled as insertion-ordered association lists,
Python sets as insertion-ordered duplicate-free lists (`addElem` mirrors
`set.add`), and exceptions as `Except`.
-/

namespace PyCG

/-! ## Generic association-list (Python dict) and set-as-list helpers -/

/-- Lookup in an association list (first match), i.e. `d.get(k)`. -/
def lookupA {α β : Type} [DecidableEq α] : List (α × β) → α → Option β
  | [], _ => none
  | p :: rest, k => if p.1 = k then some p.2 else lookupA rest k

/-- `d[k] = v`: replace the value at an existing key, else append the binding
(preserving dict insertion order). -/
def updA {α β : Type} [DecidableEq α] : List (α × β) → α → β → List (α × β)
  | [], k, v => [(k, v)]
  | p :: rest, k, v => if p.1 = k then (k, v) :: rest else p :: updA rest k v

/-- `s.add(x)` on a Python set modelled as an insertion-ordered list. -/
def addElem (l : List String) (x : String) : List String :=
  if x ∈ l then l else l ++ [x]

/-- `s.update(t)`: add every element of `t`. -/
def addSet (l t : List String) : List String :=
  t.foldl addElem l

/-- Python set equality (`==`) between two lists-as-sets. -/
def setEqB (l t : List String) : Bool :=
  l.all (fun x => x ∈ t) && t.all (fun x => x ∈ l)

theorem lookupA_updA_self {α β : Type} [DecidableEq α] (l : List (α × β)) (k : α) (v : β) :
    lookupA (updA l k v) k = some v := by
  induction l with
  | nil => simp [updA, lookupA]
  | cons p rest ih =>
    by_cases h : p.1 = k
    · simp [updA, h, lookupA]
    · simp [updA, h, lookupA, ih]

theorem lookupA_updA_ne {α β : Type} [DecidableEq α] (l : List (α × β)) (k k' : α) (v : β)
    (h : k' ≠ k) : lookupA (updA l k v) k' = lookupA l k' := by
  have hk : k ≠ k' := fun hh => h hh.symm
  induction l with
  | nil => simp [updA, lookupA, hk]
  | cons p rest ih =>
    by_cases hp : p.1 = k
    · subst hp
      simp [updA, lookupA, hk]
    · by_cases hp' : p.1 = k'
      · simp [updA, hp, lookupA, hp', h]
      · simp [updA, hp, lookupA, hp', ih]

theorem mem_addElem (l : List String) (x y : String) (h : y ∈ l) : y ∈ addElem l x := by
  unfold addElem
  split
  · exact h
  · exact List.mem_append_left _ h

theorem subset_addElem (l : List String) (x : String) : l ⊆ addElem l x :=
  fun _ h => mem_addElem l x _ h

theorem subset_addSet (l t : List String) : l ⊆ addSet l t := by
  induction t generalizing l with
  | nil => exact fun _ h => h
  | cons x xs ih =>
    intro y hy
    exact ih (addElem l x) (mem_addElem l x y hy)

/-! ## ClassNode (pycg/machinery/classes.py)

`ClassNode` holds a namespace, a module and an mro list.  `add_parent`
appends parent namespaces (guarding against an infinite loop with a hard
process exit, modelled as `none`), then `fix_mro` drops every element that
still occurs later in the list.  `compute_mro` reverses, collapses
duplicates keeping the first seen in the reversed list, and reverses back. -/

structure ClassNode where
  ns : String
  module : String
  mro : List String
deriving DecidableEq, Repr

/-- `ClassNode.__init__`: the mro starts as `[ns]`. -/
def ClassNode.init (ns module : String) : ClassNode :=
  { ns := ns, module := module, mro := [ns] }

/-- `fix_mro`: keep an element only if it does not occur again later in the
list (the source phrases this with `mro[idx+1:].count(item) > 0`). -/
def fix_mro : List String → List String
  | [] => []
  | x :: xs => if x ∈ xs then fix_mro xs else x :: fix_mro xs

/-- The append loop of `add_parent` for a list parent: before each append the
current mro is compared with the parent list and the process exits (modelled
`none`) on equality. -/
def addParentGo (parent : List String) : List String → List String → Option (List String)
  | mro, [] => some mro
  | mro, item :: rest =>
    if mro = parent then none else addParentGo parent (mro ++ [item]) rest

/-- `add_parent` with a string argument: append then `fix_mro`. -/
def ClassNode.add_parent_str (c : ClassNode) (parent : String) : ClassNode :=
  { c with mro := fix_mro (c.mro ++ [parent]) }

/-- `add_parent` with a list argument: guarded append of every item (skipped
entirely when the mro already equals the parent list), then `fix_mro`. -/
def ClassNode.add_parent_list (c : ClassNode) (parent : List String) : Option ClassNode :=
  if c.mro ≠ parent then
    (addParentGo parent c.mro parent).map (fun m => { c with mro := fix_mro m })
  else
    some { c with mro := fix_mro c.mro }

/-- The accumulator loop of `compute_mro`: walk the (already reversed) list,
appending each element not seen before. -/
def computeMroAux : List String → List String → List String
  | res, [] => res
  | res, p :: ps => computeMroAux (if p ∈ res then res else res ++ [p]) ps

/-- `compute_mro` as a function on the mro list: reverse, collapse duplicates
keeping the first seen in the reversed list, reverse back. -/
def computeMroList (l : List String) : List String :=
  (computeMroAux [] l.reverse).reverse

/-- `compute_mro` on a node. -/
def ClassNode.compute_mro (c : ClassNode) : ClassNode :=
  { c with mro := computeMroList c.mro }

/-- `clear_mro`. -/
def ClassNode.clear_mro (c : ClassNode) : ClassNode :=
  { c with mro := [c.ns] }

/-- Deduplication keeping the first occurrence of each element (accumulator of
already-seen elements), used to state what the spec claims `compute_mro` does. -/
def dedupKeepFirstGo : List String → List String → List String
  | _, [] => []
  | seen, x :: xs =>
    if x ∈ seen then dedupKeepFirstGo seen xs
    else x :: dedupKeepFirstGo (seen ++ [x]) xs

/-- Deduplication keeping the first occurrence of each element. -/
def dedupKeepFirst (l : List String) : List String :=
  dedupKeepFirstGo [] l

/-- Deduplication keeping the last occurrence of each element, phrased
independently of `fix_mro` (scan from the right, keep first-seen). -/
def dedupKeepLast (l : List String) : List String :=
  l.foldr (fun x acc => if x ∈ acc then acc else x :: acc) []

theorem mem_dedupKeepLast (l : List String) (x : String) :
    x ∈ dedupKeepLast l ↔ x ∈ l := by
  induction l with
  | nil => simp [dedupKeepLast]
  | cons y ys ih =>
    show x ∈ (if y ∈ dedupKeepLast ys then dedupKeepLast ys else y :: dedupKeepLast ys) ↔
        x ∈ y :: ys
    by_cases h : y ∈ dedupKeepLast ys
    · rw [if_pos h]
      constructor
      · intro hx; exact List.mem_cons_of_mem _ (ih.mp hx)
      · intro hx
        rcases List.mem_cons.mp hx with rfl | hx
        · exact h
        · exact ih.mpr hx
    · rw [if_neg h]
      simp only [List.mem_cons]
      constructor
      · rintro (rfl | hx)
        · exact Or.inl rfl
        · exact Or.inr (ih.mp hx)
      · rintro (rfl | hx)
        · exact Or.inl rfl
        · exact Or.inr (ih.mpr hx)

theorem fix_mro_eq_dedupKeepLast (l : List String) : fix_mro l = dedupKeepLast l := by
  induction l with
  | nil => rfl
  | cons x xs ih =>
    simp only [fix_mro, dedupKeepLast, List.foldr]
    rw [show (xs.foldr (fun x acc => if x ∈ acc then acc else x :: acc) []) =
        dedupKeepLast xs from rfl]
    by_cases h : x ∈ xs
    · rw [if_pos h, if_pos ((mem_dedupKeepLast xs x).mpr h), ih]
    · rw [if_neg h, if_neg (fun hc => h ((mem_dedupKeepLast xs x).mp hc)), ih]

theorem mem_fix_mro (l : List String) (x : String) : x ∈ fix_mro l ↔ x ∈ l := by
  rw [fix_mro_eq_dedupKeepLast]; exact mem_dedupKeepLast l x

theorem mem_computeMroAux (res t : List String) (x : String) :
    x ∈ computeMroAux res t ↔ x ∈ res ∨ x ∈ t := by
  induction t generalizing res with
  | nil => simp [computeMroAux]
  | cons p ps ih =>
    simp only [computeMroAux]
    by_cases h : p ∈ res
    · rw [if_pos h, ih]
      constructor
      · rintro (hr | ht)
        · exact Or.inl hr
        · exact Or.inr (List.mem_cons_of_mem _ ht)
      · rintro (hr | ht)
        · exact Or.inl hr
        · rcases List.mem_cons.mp ht with rfl | ht
          · exact Or.inl h
          · exact Or.inr ht
    · rw [if_neg h, ih]
      constructor
      · rintro (hr | ht)
        · rcases List.mem_append.mp hr with hr | hp
          · exact Or.inl hr
          · simp only [List.mem_singleton] at hp
            exact Or.inr (hp ▸ List.mem_cons_self _ _)
        · exact Or.inr (List.mem_cons_of_mem _ ht)
      · rintro (hr | ht)
        · exact Or.inl (List.mem_append_left _ hr)
        · rcases List.mem_cons.mp ht with rfl | ht
          · exact Or.inl (List.mem_append_right _ (List.mem_singleton_self _))
          · exact Or.inr ht

theorem computeMroAux_append (res t : List String) (x : String) :
    computeMroAux res (t ++ [x]) =
      (if x ∈ computeMroAux res t then computeMroAux res t
       else computeMroAux res t ++ [x]) := by
  induction t generalizing res with
  | nil => simp [computeMroAux]
  | cons p ps ih =>
    simp only [List.cons_append, computeMroAux]
    exact ih _

theorem computeMroList_eq_fix_mro (l : List String) : computeMroList l = fix_mro l := by
  induction l with
  | nil => rfl
  | cons x xs ih =>
    show (computeMroAux [] (x :: xs).reverse).reverse = fix_mro (x :: xs)
    rw [List.reverse_cons, computeMroAux_append]
    by_cases h : x ∈ xs
    · have hx : x ∈ computeMroAux [] xs.reverse := by
        rw [mem_computeMroAux]
        exact Or.inr (List.mem_reverse.mpr h)
      rw [if_pos hx]
      show computeMroList xs = fix_mro (x :: xs)
      rw [ih]
      simp [fix_mro, h]
    · have hx : x ∉ computeMroAux [] xs.reverse := by
        rw [mem_computeMroAux]
        rintro (hc | hc)
        · cases hc
        · exact h (List.mem_reverse.mp hc)
      rw [if_neg hx, List.reverse_append]
      show [x] ++ computeMroList xs = fix_mro (x :: xs)
      rw [List.singleton_append, ih]
      simp [fix_mro, h]

/-- C4 counterexample data: on `["a", "b", "a"]`, `compute_mro` yields
`["b", "a"]`, while keeping the first occurrence would yield `["a", "b"]`. -/
theorem compute_mro_counterexample :
    computeMroList ["a", "b", "a"] = ["b", "a"] ∧
    dedupKeepFirst ["a", "b", "a"] = ["a", "b"] ∧
    computeMroList ["a", "b", "a"] ≠ dedupKeepFirst ["a", "b", "a"] := by
  refine ⟨by decide, by decide, by decide⟩

/-- C4 (amended): `fix_mro` and `compute_mro` compute the same function on
mro lists; both drop duplicates keeping the last occurrence of each element
(`compute_mro` does not keep the first occurrence). -/
theorem fix_mro_compute_mro_both_keep_last (l : List String) :
    computeMroList l = fix_mro l ∧ fix_mro l = dedupKeepLast l :=
  ⟨computeMroList_eq_fix_mro l, fix_mro_eq_dedupKeepLast l⟩

/-! ### C5: sequences of `clear_mro` / `add_parent` / `compute_mro` -/

/-- One mro-mutating operation on a `ClassNode`. -/
inductive MroOp where
  | clear : MroOp
  | addStr : String → MroOp
  | addList : List String → MroOp
  | compute : MroOp
deriving DecidableEq, Repr

/-- Apply one operation; `none` models the `sys.exit(123)` guard inside
`add_parent`. -/
def applyMroOp (c : ClassNode) : MroOp → Option ClassNode
  | .clear => some c.clear_mro
  | .addStr p => some (c.add_parent_str p)
  | .addList ps => c.add_parent_list ps
  | .compute => some c.compute_mro

/-- Run a sequence of operations. -/
def runMroOps : ClassNode → List MroOp → Option ClassNode
  | c, [] => some c
  | c, op :: rest =>
    match applyMroOp c op with
    | none => none
    | some c2 => runMroOps c2 rest

theorem runMroOps_append (c : ClassNode) (l1 l2 : List MroOp) :
    runMroOps c (l1 ++ l2) =
      match runMroOps c l1 with
      | none => none
      | some c2 => runMroOps c2 l2 := by
  induction l1 generalizing c with
  | nil => simp [runMroOps]
  | cons op rest ih =>
    show runMroOps c (op :: (rest ++ l2)) = _
    simp only [runMroOps]
    cases happ : applyMroOp c op with
    | none => rfl
    | some c2 => exact ih c2

/-- A parent argument is benign for namespace `ns` when it never introduces
`ns` itself. -/
def mroOpOK (ns : String) : MroOp → Prop
  | .addStr p => p ≠ ns
  | .addList ps => ns ∉ ps
  | _ => True

/-- The invariant maintained by benign operations: the mro starts with `ns`
and `ns` does not occur in its tail. -/
def MroInv (ns : String) (c : ClassNode) : Prop :=
  c.ns = ns ∧ ∃ t : List String, c.mro = ns :: t ∧ ns ∉ t

theorem fix_mro_head (ns : String) (t : List String) (h : ns ∉ t) :
    fix_mro (ns :: t) = ns :: fix_mro t := by
  simp [fix_mro, h]

theorem mroInv_fix_mro (ns : String) (t : List String) (h : ns ∉ t) :
    ∃ t2, fix_mro (ns :: t) = ns :: t2 ∧ ns ∉ t2 := by
  refine ⟨fix_mro t, fix_mro_head ns t h, ?_⟩
  rw [mem_fix_mro]; exact h

theorem addParentGo_shape (parent : List String) (t items : List String) (ns : String)
    (hns : ns ∉ t) (hitems : ns ∉ items) :
    ∀ m, addParentGo parent (ns :: t) items = some m →
      ∃ t2, m = ns :: t2 ∧ ns ∉ t2 := by
  induction items generalizing t with
  | nil =>
    intro m hm
    simp only [addParentGo] at hm
    exact ⟨t, by injection hm with h; exact h.symm, hns⟩
  | cons item rest ih =>
    intro m hm
    simp only [addParentGo] at hm
    split at hm
    · cases hm
    · have h1 : ns ∉ t ++ [item] := by
        intro hc
        rcases List.mem_append.mp hc with hc | hc
        · exact hns hc
        · simp only [List.mem_singleton] at hc
          exact hitems (hc ▸ List.mem_cons_self _ _)
      have h2 : ns ∉ rest := fun hc => hitems (List.mem_cons_of_mem _ hc)
      have := ih (t ++ [item]) h1 h2 m
      rw [show ns :: (t ++ [item]) = (ns :: t) ++ [item] by rfl] at this
      exact this hm

theorem mroInv_preserved (ns : String) (c : ClassNode) (op : MroOp) (c2 : ClassNode)
    (hinv : MroInv ns c) (hok : mroOpOK ns op) (happ : applyMroOp c op = some c2) :
    MroInv ns c2 := by
  obtain ⟨hcns, t, hmro, hns⟩ := hinv
  cases op with
  | clear =>
    simp only [applyMroOp] at happ
    injection happ with h
    subst h
    exact ⟨hcns, [], by simp [ClassNode.clear_mro, hcns], by simp⟩
  | addStr p =>
    simp only [applyMroOp] at happ
    injection happ with h
    subst h
    refine ⟨hcns, ?_⟩
    simp only [ClassNode.add_parent_str, hmro]
    have hp : ns ∉ t ++ [p] := by
      intro hc
      rcases List.mem_append.mp hc with hc | hc
      · exact hns hc
      · simp only [List.mem_singleton] at hc
        exact hok hc.symm
    exact mroInv_fix_mro ns (t ++ [p]) hp
  | addList ps =>
    simp only [applyMroOp, ClassNode.add_parent_list] at happ
    split at happ
    · cases hgo : addParentGo ps c.mro ps with
      | none => rw [hgo] at happ; cases happ
      | some m =>
        rw [hgo] at happ
        simp only [Option.map_some'] at happ
        obtain ⟨t2, hm, ht2⟩ := addParentGo_shape ps t ps ns hns hok m (hmro ▸ hgo)
        injection happ with h
        subst h
        refine ⟨hcns, ?_⟩
        simp only [hm]
        exact mroInv_fix_mro ns t2 ht2
    · injection happ with h
      subst h
      refine ⟨hcns, ?_⟩
      simp only [hmro]
      exact mroInv_fix_mro ns t hns
  | compute =>
    simp only [applyMroOp] at happ
    injection happ with h
    subst h
    refine ⟨hcns, ?_⟩
    simp only [ClassNode.compute_mro, computeMroList_eq_fix_mro, hmro]
    exact mroInv_fix_mro ns t hns

theorem mroInv_run (ns : String) (c : ClassNode) (ops : List MroOp) (c2 : ClassNode)
    (hinv : MroInv ns c) (hok : ∀ op ∈ ops, mroOpOK ns op)
    (hrun : runMroOps c ops = some c2) : MroInv ns c2 := by
  induction ops generalizing c with
  | nil =>
    simp only [runMroOps] at hrun
    injection hrun with h
    exact h ▸ hinv
  | cons op rest ih =>
    simp only [runMroOps] at hrun
    cases happ : applyMroOp c op with
    | none => rw [happ] at hrun; cases hrun
    | some cmid =>
      rw [happ] at hrun
      exact ih cmid
        (mroInv_preserved ns c op cmid hinv (hok op (List.mem_cons_self _ _)) happ)
        (fun o ho => hok o (List.mem_cons_of_mem _ ho)) hrun

theorem nodup_fix_mro (l : List String) : (fix_mro l).Nodup := by
  induction l with
  | nil => exact List.nodup_nil
  | cons x xs ih =>
    simp only [fix_mro]
    split
    · exact ih
    · exact List.nodup_cons.mpr ⟨fun hc => (by assumption : x ∉ xs) ((mem_fix_mro xs x).mp hc), ih⟩

/-- C5 counterexample: starting from `ClassNode("c", "m")`, the sequence
`add_parent(["d", "c"]); compute_mro()` (an inheritance cycle through the
class itself) yields `mro = ["d", "c"]`, whose first element is not the class
namespace. -/
theorem mro_head_counterexample :
    runMroOps (ClassNode.init "c" "m") [MroOp.addList ["d", "c"], MroOp.compute] =
      some { ns := "c", module := "m", mro := ["d", "c"] } ∧
    ("d" : String) ≠ "c" := by
  refine ⟨by decide, by decide⟩

/-- C5 (amended): for every sequence of `clear_mro`, `add_parent` and
`compute_mro` operations ending in `compute_mro` which all succeed, the final
mro has no duplicates (unconditionally); and its first element is the class
namespace `ns` provided no added parent equals `ns` itself. -/
theorem mro_nodup_and_head (ns mod : String) (ops : List MroOp) (c2 : ClassNode)
    (hrun : runMroOps (ClassNode.init ns mod) (ops ++ [MroOp.compute]) = some c2) :
    c2.mro.Nodup ∧
    ((∀ op ∈ ops ++ [MroOp.compute], mroOpOK ns op) → c2.mro.headI = ns) := by
  constructor
  · rw [runMroOps_append] at hrun
    cases hmid : runMroOps (ClassNode.init ns mod) ops with
    | none => rw [hmid] at hrun; cases hrun
    | some cmid =>
      rw [hmid] at hrun
      simp only [runMroOps, applyMroOp] at hrun
      injection hrun with h
      rw [← h]
      simp only [ClassNode.compute_mro, computeMroList_eq_fix_mro]
      exact nodup_fix_mro _
  · intro hok
    have hinv0 : MroInv ns (ClassNode.init ns mod) := ⟨rfl, [], rfl, by simp⟩
    have hinv2 := mroInv_run ns (ClassNode.init ns mod) (ops ++ [MroOp.compute]) c2 hinv0 hok hrun
    obtain ⟨_, t, hmro, _⟩ := hinv2
    rw [hmro]; rfl

/-- C5 witness: the amended theorem applied to the concrete sequence
`add_parent("d"); compute_mro()` on `ClassNode("c", "m")`, with the
benign-parents hypothesis of the head clause discharged there. -/
theorem mro_nodup_and_head_witness :
    ({ ns := "c", module := "m", mro := ["c", "d"] } : ClassNode).mro.Nodup ∧
    ({ ns := "c", module := "m", mro := ["c", "d"] } : ClassNode).mro.headI = "c" := by
  have h := mro_nodup_and_head "c" "m" [MroOp.addStr "d"]
    { ns := "c", module := "m", mro := ["c", "d"] } (by decide)
  exact ⟨h.1, h.2 (by intro op hop; fin_cases hop <;> simp [mroOpOK])⟩

/-! ## Import resolver (pycg/machinery/imports.py)

`_handle_import_level` computes the relative module name (`level` dots
prefixed to `name`) and the package context (the current module namespace
with its trailing components stripped via the Python slice `package[:-level]`,
with the documented adjustment for `__init__.py` files).  `handle_import`
short-circuits builtin root modules into `create_edge` and swallows
`ImportError` from `_handle_import_level`, returning `None`. -/

/-- Helper for `pySplitDot`: split a character list on `'.'`. -/
def splitDotAux : List Char → List Char → List String
  | [], acc => [String.mk acc.reverse]
  | c :: cs, acc =>
    if c = '.' then String.mk acc.reverse :: splitDotAux cs []
    else splitDotAux cs (c :: acc)

/-- Python `s.split(".")` (total: the empty string yields `[""]`). -/
def pySplitDot (s : String) : List String :=
  splitDotAux s.data []

/-- Python `".".join(parts)`. -/
def joinDot : List String → String
  | [] => ""
  | [x] => x
  | x :: xs => x ++ "." ++ joinDot xs

/-- The Python slice `l[:-level]`: for `level = 0` this is `l[:0] = []`
(everything dropped), otherwise the last `level` elements are dropped. -/
def pySliceDropTrailing (l : List String) (level : Nat) : List String :=
  if level = 0 then [] else l.take (l.length - level)

/-- `ImportManager._handle_import_level(name, level)`; the boolean is
`self._is_init_file()`, the first string is `self._get_module_path()`
(the current module namespace).  Raising `ImportError` is `Except.error`. -/
def handle_import_level (currentModule name : String) (isInit : Bool) (level : Nat) :
    Except String (String × String) :=
  let package := pySplitDot currentModule
  if level > package.length then
    Except.error "Attempting import beyond top level package"
  else
    let modName := String.mk (List.replicate level '.') ++ name
    if isInit ∧ level ≥ 1 then
      if level ≠ 1 then
        Except.ok (modName, joinDot (pySliceDropTrailing package (level - 1)))
      else
        Except.ok (modName, joinDot package)
    else
      Except.ok (modName, joinDot (pySliceDropTrailing package level))

/-- The import graph: module name to set of imported module names (the
`filename` field of a node is irrelevant to the modelled claims). -/
def ImportGraph := List (String × List String)

/-- `ImportManager.create_edge(dest)`: raises when the current module has no
node in the import graph. -/
def create_edge (ig : ImportGraph) (currentModule dest : String) :
    Except String ImportGraph :=
  if dest = "" then Except.error "Invalid node name"
  else
    match lookupA ig currentModule with
    | none => Except.error "Cant add edge to a non existing node"
    | some imports => Except.ok (updA ig currentModule (addElem imports dest))

/-- `ImportManager.handle_import(name, level)`.  The machinery that runs
after a successful `_handle_import_level` (the four candidate `(module,
package)` pairs attempted through the host `importlib`, and the subsequent
file-path checks) depends on the host import system and is abstracted by the
`loadResult` parameter; every path of the claims under study returns before
reaching it or is insensitive to it.  A raised `ImportManagerError` from
`create_edge` propagates (`Except.error`); a raised `ImportError` from
`_handle_import_level` is caught and turned into `none`. -/
def handle_import (ig : ImportGraph) (currentModule : String) (isInit : Bool)
    (builtins : List String) (loadResult : String → String → Option String)
    (name : String) (level : Nat) : Except String (Option String × ImportGraph) :=
  let root := (pySplitDot name).headI
  if root ∈ builtins then
    match create_edge ig currentModule root with
    | Except.error e => Except.error e
    | Except.ok ig2 => Except.ok (none, ig2)
  else
    match handle_import_level currentModule name isInit level with
    | Except.error _ => Except.ok (none, ig)
    | Except.ok (modName, package) => Except.ok (loadResult modName package, ig)

/-- C6 counterexample: at level 0 (an absolute import) in module `a.b`, the
code returns package context `""` — the slice `package[:-0]` drops every
component — whereas stripping "exactly level components" would leave `a.b`
unchanged. -/
theorem import_level_zero_counterexample :
    handle_import_level "a.b" "m" false 0 = Except.ok ("m", "") ∧
    ("m", "") ≠ (("m", "a.b") : String × String) := by
  refine ⟨by rfl, by decide⟩

/-- C6 (amended): for `1 ≤ level ≤` the number of components of the current
module namespace, `_handle_import_level` returns `level` dots prefixed to
`name` together with the namespace with exactly its trailing `level`
components stripped (`level - 1` when the source file is a package
initializer); for `level = 0` the returned package context is always the
empty string, because the slice `package[:-0]` drops every component. -/
theorem handle_import_level_spec (currentModule name : String) (isInit : Bool)
    (level : Nat) (hle : level ≤ (pySplitDot currentModule).length) :
    (1 ≤ level →
      handle_import_level currentModule name isInit level =
        Except.ok (String.mk (List.replicate level '.') ++ name,
          joinDot ((pySplitDot currentModule).take
            ((pySplitDot currentModule).length -
              (level - (if isInit then 1 else 0)))))) ∧
    (level = 0 →
      handle_import_level currentModule name isInit level = Except.ok (name, "")) := by
  constructor
  · intro h1
    unfold handle_import_level
    rw [if_neg (by omega)]
    by_cases hinit : isInit
    · rw [if_pos ⟨hinit, h1⟩]
      by_cases hl1 : level = 1
      · rw [if_neg (by simp [hl1])]
        subst hl1
        simp [hinit]
      · rw [if_pos hl1]
        have h2 : 2 ≤ level := by omega
        simp only [hinit, if_pos]
        unfold pySliceDropTrailing
        rw [if_neg (by omega)]
    · rw [if_neg (by simp [hinit])]
      simp only [hinit, if_neg]
      unfold pySliceDropTrailing
      rw [if_neg (by omega)]
      simp
  · intro h0
    subst h0
    unfold handle_import_level
    rw [if_neg (by omega)]
    rw [if_neg (by simp)]
    simp [pySliceDropTrailing, joinDot]

/-- C6 witness: `_handle_import_level("m", 2)` in module `a.b.c` (not an
initializer) yields `("..m", "a")`; the level-0 clause applied in module
`a.b` yields `("m", "")`. -/
theorem handle_import_level_spec_witness :
    handle_import_level "a.b.c" "m" false 2 = Except.ok ("..m", "a") ∧
    handle_import_level "a.b" "m" false 0 = Except.ok ("m", "") := by
  constructor
  · have h := (handle_import_level_spec "a.b.c" "m" false 2 (by decide)).1 (by decide)
    rw [h]; rfl
  · exact (handle_import_level_spec "a.b" "m" false 0 (by decide)).2 rfl

/-- C8 counterexample: a call whose relative level (5) exceeds the number of
components of the current module namespace (`"a"`, one component) can still
raise: when the root segment of `name` is a builtin module, `create_edge`
runs first and raises because the current module has no import-graph node. -/
theorem handle_import_builtin_raise_counterexample :
    handle_import [] "a" false ["os"] (fun _ _ => none) "os" 5 =
      Except.error "Cant add edge to a non existing node" ∧
    5 > (pySplitDot "a").length := by
  refine ⟨by rfl, by decide⟩

/-- C8 (amended): when the requested relative level exceeds the number of
components of the current module namespace and the root segment of `name` is
not a builtin module name, `handle_import` raises no exception and returns
`None` (the `ImportError` from `_handle_import_level` is logged and
swallowed).  With a builtin root the level is never consulted: the call
creates an edge instead and raises only if the current module has no node. -/
theorem handle_import_beyond_top_returns_none (ig : ImportGraph)
    (currentModule name : String) (isInit : Bool) (builtins : List String)
    (loadResult : String → String → Option String) (level : Nat)
    (hroot : (pySplitDot name).headI ∉ builtins)
    (hlevel : level > (pySplitDot currentModule).length) :
    handle_import ig currentModule isInit builtins loadResult name level =
      Except.ok (none, ig) := by
  unfold handle_import
  rw [if_neg hroot]
  unfold handle_import_level
  rw [if_pos hlevel]

/-- C8 witness: the amended theorem at a concrete call — importing `"m"` at
level 3 from module `a.b` returns `None` without raising. -/
theorem handle_import_beyond_top_returns_none_witness :
    handle_import [("a.b", [])] "a.b" false ["os"] (fun _ _ => none) "m" 3 =
      Except.ok (none, [("a.b", [])]) :=
  handle_import_beyond_top_returns_none [("a.b", [])] "a.b" "m" false ["os"]
    (fun _ _ => none) 3 (by decide) (by decide)

/-! ## NamePointer (pycg/machinery/pointers.py)

`NamePointer` holds `values` (a set of namespaces), the positional maps
`pos_to_name` / `name_to_pos`, and `args` (parameter name to set of
namespaces).  Literal tags are the strings stored by `add_lit_arg`. -/

structure NamePtr where
  values : List String
  pos_to_name : List (Nat × String)
  name_to_pos : List (String × Nat)
  args : List (String × List String)
deriving DecidableEq, Repr

/-- `NamePointer.__init__`. -/
def NamePtr.init : NamePtr := ⟨[], [], [], []⟩

/-- `Pointer.add`. -/
def NamePtr.add (np : NamePtr) (item : String) : NamePtr :=
  { np with values := addElem np.values item }

/-- `Pointer.add_set`. -/
def NamePtr.add_set (np : NamePtr) (s : List String) : NamePtr :=
  { np with values := addSet np.values s }

/-- The argument of `add_arg`: a single namespace or a set of namespaces. -/
inductive ArgItem where
  | one : String → ArgItem
  | many : List String → ArgItem
deriving DecidableEq, Repr

/-- A literal handed to `add_lit_arg` / `add_pos_lit_arg`. -/
inductive LitVal where
  | s : String → LitVal
  | i : Int → LitVal
  | other : LitVal
deriving DecidableEq, Repr

/-- `LiteralPointer.STR_LIT`. -/
def STR_LIT : String := "STRING"

/-- `LiteralPointer.INT_LIT`. -/
def INT_LIT : String := "INTEGER"

/-- `LiteralPointer.UNK_LIT`. -/
def UNK_LIT : String := "UNKNOWN"

/-- `NamePointer.add_arg(name, item)`: `get_or_create` the set under `name`,
then insert a single namespace or union a set of namespaces. -/
def NamePtr.add_arg (np : NamePtr) (name : String) (item : ArgItem) : NamePtr :=
  let cur := (lookupA np.args name).getD []
  let updated :=
    match item with
    | ArgItem.one s => addElem cur s
    | ArgItem.many l => addSet cur l
  { np with args := updA np.args name updated }

/-- `NamePointer.add_lit_arg(name, item)`: store the literal's tag. -/
def NamePtr.add_lit_arg (np : NamePtr) (name : String) (item : LitVal) : NamePtr :=
  let cur := (lookupA np.args name).getD []
  let tag :=
    match item with
    | LitVal.s _ => STR_LIT
    | LitVal.i _ => INT_LIT
    | LitVal.other => UNK_LIT
  { np with args := updA np.args name (addElem cur tag) }

/-- The effective name chosen by `add_pos_arg` when the caller passes a falsy
name: reuse the name already bound to the position if truthy, else the
decimal rendering of the position. -/
def effectivePosName (np : NamePtr) (pos : Nat) (name : Option String) : String :=
  match name with
  | some n => if n ≠ "" then n else
      match lookupA np.pos_to_name pos with
      | some m => if m ≠ "" then m else toString pos
      | none => toString pos
  | none =>
      match lookupA np.pos_to_name pos with
      | some m => if m ≠ "" then m else toString pos
      | none => toString pos

/-- `NamePointer.add_pos_arg(pos, name, item)`: pick the effective name,
update both directional maps, then `add_arg`. -/
def NamePtr.add_pos_arg (np : NamePtr) (pos : Nat) (name : Option String)
    (item : ArgItem) : NamePtr :=
  let n := effectivePosName np pos name
  let np2 := { np with pos_to_name := updA np.pos_to_name pos n,
                       name_to_pos := updA np.name_to_pos n pos }
  np2.add_arg n item

/-- `NamePointer.add_pos_lit_arg(pos, name, item)`: a falsy name falls back to
the decimal rendering of the position (this variant never consults
`pos_to_name`), both maps are updated, then `add_lit_arg`. -/
def NamePtr.add_pos_lit_arg (np : NamePtr) (pos : Nat) (name : String)
    (item : LitVal) : NamePtr :=
  let n := if name ≠ "" then name else toString pos
  let np2 := { np with pos_to_name := updA np.pos_to_name pos n,
                       name_to_pos := updA np.name_to_pos n pos }
  np2.add_lit_arg n item

/-- `NamePointer.merge(other)`: union `values`, copy every `pos_to_name`
entry, and `add_arg` every `args` entry — `name_to_pos` is not merged. -/
def NamePtr.merge (np other : NamePtr) : NamePtr :=
  let np1 := { np with values := addSet np.values other.values }
  let np2 := { np1 with pos_to_name :=
    other.pos_to_name.foldl (fun m q => updA m q.1 q.2) np1.pos_to_name }
  other.args.foldl (fun acc q => acc.add_arg q.1 (ArgItem.many q.2)) np2

/-! ### C7: are `pos_to_name` and `name_to_pos` mutual inverses? -/

/-- One operation of the claim-C7 alphabet. -/
inductive NPOp where
  | posArg : Nat → Option String → ArgItem → NPOp
  | posLitArg : Nat → String → LitVal → NPOp
  | mrg : NamePtr → NPOp
deriving Repr

/-- Apply one operation. -/
def applyNPOp (np : NamePtr) : NPOp → NamePtr
  | NPOp.posArg pos name item => np.add_pos_arg pos name item
  | NPOp.posLitArg pos name item => np.add_pos_lit_arg pos name item
  | NPOp.mrg other => np.merge other

/-- Run a sequence of operations on a fresh `NamePointer`. -/
def runNPOps (ops : List NPOp) : NamePtr :=
  ops.foldl applyNPOp NamePtr.init

/-- The inverse property claimed by the spec, as a decidable check:
`name_to_pos` maps `n` to `p` iff `pos_to_name` maps `p` to `n`. -/
def npInverseB (np : NamePtr) : Bool :=
  np.name_to_pos.all (fun q => lookupA np.pos_to_name q.2 == some q.1) &&
  np.pos_to_name.all (fun q => lookupA np.name_to_pos q.2 == some q.1)

/-- C7 counterexample: binding position 0 first to name `x` and then to name
`y` leaves the stale entry `name_to_pos["x"] = 0` while
`pos_to_name[0] = "y"`, so the two maps are not mutual inverses. -/
theorem np_inverse_counterexample :
    npInverseB (runNPOps
      [NPOp.posArg 0 (some "x") (ArgItem.one "v"),
       NPOp.posArg 0 (some "y") (ArgItem.one "v")]) = false ∧
    lookupA (runNPOps
      [NPOp.posArg 0 (some "x") (ArgItem.one "v"),
       NPOp.posArg 0 (some "y") (ArgItem.one "v")]).name_to_pos "x" = some 0 ∧
    lookupA (runNPOps
      [NPOp.posArg 0 (some "x") (ArgItem.one "v"),
       NPOp.posArg 0 (some "y") (ArgItem.one "v")]).pos_to_name 0 = some "y" := by
  refine ⟨by rfl, by rfl, by rfl⟩

/-- Every key of `pos_to_name` survives `updA` and `foldl updA`. -/
theorem lookupA_isSome_updA {α β : Type} [DecidableEq α] (l : List (α × β))
    (k k' : α) (v : β) (h : (lookupA l k').isSome) :
    (lookupA (updA l k v) k').isSome := by
  by_cases hk : k' = k
  · subst hk; rw [lookupA_updA_self]; rfl
  · rw [lookupA_updA_ne l k k' v hk]; exact h

theorem lookupA_isSome_foldl_updA {α β : Type} [DecidableEq α]
    (entries : List (α × β)) (l : List (α × β)) (k' : α)
    (h : (lookupA l k').isSome) :
    (lookupA (entries.foldl (fun m q => updA m q.1 q.2) l) k').isSome := by
  induction entries generalizing l with
  | nil => exact h
  | cons q rest ih => exact ih (updA l q.1 q.2) (lookupA_isSome_updA l q.1 k' q.2 h)

/-- The weak coherence invariant that actually holds: every entry of
`name_to_pos` points at an existing key of `pos_to_name`. -/
def NpCoherent (np : NamePtr) : Prop :=
  ∀ n p, lookupA np.name_to_pos n = some p → (lookupA np.pos_to_name p).isSome

theorem npCoherent_preserved (np : NamePtr) (op : NPOp) (h : NpCoherent np) :
    NpCoherent (applyNPOp np op) := by
  cases op with
  | posArg pos name item =>
    intro n p hn
    simp only [applyNPOp, NamePtr.add_pos_arg, NamePtr.add_arg] at hn ⊢
    by_cases hname : n = effectivePosName np pos name
    · subst hname
      rw [lookupA_updA_self] at hn
      injection hn with hp
      subst hp
      rw [lookupA_updA_self]; rfl
    · rw [lookupA_updA_ne _ _ _ _ hname] at hn
      exact lookupA_isSome_updA _ _ _ _ (h n p hn)
  | posLitArg pos name item =>
    intro n p hn
    simp only [applyNPOp, NamePtr.add_pos_lit_arg, NamePtr.add_lit_arg] at hn ⊢
    by_cases hname : n = (if name ≠ "" then name else toString pos)
    · subst hname
      rw [lookupA_updA_self] at hn
      injection hn with hp
      subst hp
      rw [lookupA_updA_self]; rfl
    · rw [lookupA_updA_ne _ _ _ _ hname] at hn
      exact lookupA_isSome_updA _ _ _ _ (h n p hn)
  | mrg other =>
    intro n p hn
    -- `add_arg` only touches `args`; fold it away structurally.
    have hfold : ∀ (entries : List (String × List String)) (acc : NamePtr),
        (entries.foldl (fun a q => NamePtr.add_arg a q.1 (ArgItem.many q.2)) acc).name_to_pos
          = acc.name_to_pos ∧
        (entries.foldl (fun a q => NamePtr.add_arg a q.1 (ArgItem.many q.2)) acc).pos_to_name
          = acc.pos_to_name := by
      intro entries
      induction entries with
      | nil => intro acc; exact ⟨rfl, rfl⟩
      | cons q rest ih =>
        intro acc
        exact ih (acc.add_arg q.1 (ArgItem.many q.2))
    simp only [applyNPOp, NamePtr.merge] at hn ⊢
    rw [(hfold other.args _).1] at hn
    rw [(hfold other.args _).2]
    exact lookupA_isSome_foldl_updA other.pos_to_name np.pos_to_name p (h n p hn)

/-- C7 (amended): after any sequence of `add_pos_arg`, `add_pos_lit_arg` and
`merge` operations on a fresh `NamePointer`, every entry `n ↦ p` of
`name_to_pos` points at an existing key `p` of `pos_to_name`; the full
inverse correspondence does not hold (rebinding a position leaves a stale
`name_to_pos` entry, and `merge` copies `pos_to_name` without touching
`name_to_pos`). -/
theorem name_to_pos_coherence (ops : List NPOp) (n : String) (p : Nat)
    (h : lookupA (runNPOps ops).name_to_pos n = some p) :
    (lookupA (runNPOps ops).pos_to_name p).isSome := by
  have hgen : ∀ (l : List NPOp) (np0 : NamePtr), NpCoherent np0 →
      NpCoherent (l.foldl applyNPOp np0) := by
    intro l
    induction l with
    | nil => intro np0 h0; exact h0
    | cons op rest ih =>
      intro np0 h0
      exact ih (applyNPOp np0 op) (npCoherent_preserved np0 op h0)
  have base : NpCoherent NamePtr.init := by
    intro n p hn
    simp [NamePtr.init, lookupA] at hn
  exact hgen ops NamePtr.init base n p h

/-- C7 witness: the coherence theorem applied after a single
`add_pos_arg(1, "x", "v")`. -/
theorem name_to_pos_coherence_witness :
    (lookupA (runNPOps [NPOp.posArg 1 (some "x") (ArgItem.one "v")]).pos_to_name 1).isSome :=
  name_to_pos_coherence [NPOp.posArg 1 (some "x") (ArgItem.one "v")] "x" 1 (by rfl)

/-! ## Definitions (pycg/machinery/definitions.py) -/

/-- `utils.join_ns(*args)`, binary case: `".".join(args)`. -/
def join_ns (a b : String) : String := a ++ "." ++ b

/-- Modelled from the spec: the constant `utils.constants.RETURN_NAME` lives
in a module that is not part of the analysed sources; §3 of the spec names
return namespaces `pkg.module.fn.<return>`, so the constant is the string
`<return>`.  (No claim depends on the exact spelling.) -/
def RETURN_NAME : String := "<return>"

/-- The allowed `Definition.types`. -/
inductive DefType where
  | FUN | MOD | NAME | CLS | EXT
deriving DecidableEq, Repr

/-- `LiteralPointer.values` holds verbatim strings and integers (other
literals collapse to the tag `UNKNOWN`, itself a string). -/
def litAddElem (l : List LitVal) (x : LitVal) : List LitVal :=
  if x ∈ l then l else l ++ [x]

/-- Union of literal-pointer value sets. -/
def litAddSet (l t : List LitVal) : List LitVal :=
  t.foldl litAddElem l

/-- `Definition`: namespace, type, name pointer, literal pointer (the
`decorator_names` attribute plays no role in the modelled claims). -/
structure Defn where
  fullns : String
  def_type : DefType
  name_pointer : NamePtr
  literal_pointer : List LitVal
deriving DecidableEq, Repr

/-- `Definition.__init__`. -/
def Defn.init (ns : String) (t : DefType) : Defn :=
  ⟨ns, t, NamePtr.init, []⟩

/-- `Definition.merge(to_merge)`: merge both pointers. -/
def Defn.merge (d src : Defn) : Defn :=
  { d with name_pointer := d.name_pointer.merge src.name_pointer,
           literal_pointer := litAddSet d.literal_pointer src.literal_pointer }

/-- `DefinitionManager.defs`: a dict from namespace to definition. -/
def Store := List (String × Defn)

/-- `DefinitionManager.handle_function_def(parent_ns, fn_name)`: create the
FUN definition when absent, then ensure the companion `<return>` NAME
definition exists.  (The internal `create` calls are guarded by the `get`
checks, so its duplicate/empty-namespace errors are unreachable here:
`join_ns` never yields an empty string.) -/
def handle_function_def (defs : Store) (parent fn : String) : Store :=
  let full := join_ns parent fn
  let defs2 :=
    match lookupA defs full with
    | some _ => defs
    | none => updA defs full (Defn.init full DefType.FUN)
  let ret := join_ns full RETURN_NAME
  match lookupA defs2 ret with
  | some _ => defs2
  | none => updA defs2 ret (Defn.init ret DefType.NAME)

/-- `DefinitionManager.assign(ns, defi)`: overwrite `defs[ns]` with a fresh
definition of `defi`'s type merged with `defi`; when `defi` is a FUN, also
(over)write the `<ns>.<return>` NAME definition pointing at
`<defi.fullns>.<return>`. -/
def assign (defs : Store) (ns : String) (defi : Defn) : Store :=
  let fresh := (Defn.init ns defi.def_type).merge defi
  let defs2 := updA defs ns fresh
  if defi.def_type = DefType.FUN then
    let ret := join_ns ns RETURN_NAME
    let retDef : Defn :=
      { Defn.init ret DefType.NAME with
        name_pointer := NamePtr.init.add (join_ns defi.fullns RETURN_NAME) }
    updA defs2 ret retDef
  else
    defs2

/-! ### C9: every FUN definition has its `<return>` companion -/

/-- One store-building operation of claim C9. -/
inductive DefOp where
  | hfd : String → String → DefOp
  | asgn : String → Defn → DefOp

/-- Apply one operation. -/
def applyDefOp (defs : Store) : DefOp → Store
  | DefOp.hfd parent fn => handle_function_def defs parent fn
  | DefOp.asgn ns defi => assign defs ns defi

/-- Run a sequence of operations on an empty manager. -/
def runDefOps (ops : List DefOp) : Store :=
  ops.foldl applyDefOp []

/-- The invariant: every FUN definition has a `<return>` companion key. -/
def FunHasReturn (defs : Store) : Prop :=
  ∀ ns d, lookupA defs ns = some d → d.def_type = DefType.FUN →
    (lookupA defs (join_ns ns RETURN_NAME)).isSome

theorem lookupA_isSome_of_updA_other {α β : Type} [DecidableEq α]
    (l : List (α × β)) (k k' : α) (v : β) (h : (lookupA (updA l k v) k').isSome)
    (hne : k' ≠ k) : (lookupA l k').isSome := by
  rw [lookupA_updA_ne l k k' v hne] at h
  exact h

theorem funHasReturn_hfd (defs : Store) (parent fn : String)
    (h : FunHasReturn defs) : FunHasReturn (handle_function_def defs parent fn) := by
  unfold handle_function_def
  set full := join_ns parent fn with hfull
  set ret := join_ns full RETURN_NAME with hret
  cases hlf : lookupA defs full with
  | some dfull =>
    simp only [hlf]
    cases hlr : lookupA defs ret with
    | some dret =>
      simp only [hlr]
      exact h
    | none =>
      simp only [hlr]
      intro m d hm ht
      have hmne : m ≠ ret := by
        intro he
        rw [he, lookupA_updA_self] at hm
        injection hm with hd
        rw [← hd] at ht
        cases ht
      rw [lookupA_updA_ne _ _ _ _ hmne] at hm
      by_cases hc : join_ns m RETURN_NAME = ret
      · rw [hc, lookupA_updA_self]; rfl
      · rw [lookupA_updA_ne _ _ _ _ hc]
        exact h m d hm ht
  | none =>
    simp only [hlf]
    cases hlr : lookupA (updA defs full (Defn.init full DefType.FUN)) ret with
    | some dret =>
      simp only [hlr]
      intro m d hm ht
      by_cases hmf : m = full
      · subst hmf
        rw [← hret, hlr]; rfl
      · rw [lookupA_updA_ne _ _ _ _ hmf] at hm
        by_cases hc : join_ns m RETURN_NAME = full
        · rw [hc, lookupA_updA_self]; rfl
        · rw [lookupA_updA_ne _ _ _ _ hc]
          exact h m d hm ht
    | none =>
      simp only [hlr]
      intro m d hm ht
      have hmne : m ≠ ret := by
        intro he
        rw [he, lookupA_updA_self] at hm
        injection hm with hd
        rw [← hd] at ht
        cases ht
      rw [lookupA_updA_ne _ _ _ _ hmne] at hm
      by_cases hmf : m = full
      · subst hmf
        rw [lookupA_updA_self]; rfl
      · rw [lookupA_updA_ne _ _ _ _ hmf] at hm
        by_cases hc : join_ns m RETURN_NAME = ret
        · rw [hc, lookupA_updA_self]; rfl
        · rw [lookupA_updA_ne _ _ _ _ hc]
          by_cases hc2 : join_ns m RETURN_NAME = full
          · rw [hc2, lookupA_updA_self]; rfl
          · rw [lookupA_updA_ne _ _ _ _ hc2]
            exact h m d hm ht

theorem funHasReturn_assign (defs : Store) (ns : String) (defi : Defn)
    (h : FunHasReturn defs) : FunHasReturn (assign defs ns defi) := by
  unfold assign
  by_cases hfun : defi.def_type = DefType.FUN
  · simp only [if_pos hfun]
    set fresh := (Defn.init ns defi.def_type).merge defi with hfresh
    set ret := join_ns ns RETURN_NAME with hret
    intro m d hm ht
    by_cases hmr : m = ret
    · subst hmr
      rw [lookupA_updA_self] at hm
      injection hm with hd
      rw [← hd] at ht
      cases ht
    · rw [lookupA_updA_ne _ _ _ _ hmr] at hm
      by_cases hmn : m = ns
      · subst hmn
        rw [← hret, lookupA_updA_self]; rfl
      · rw [lookupA_updA_ne _ _ _ _ hmn] at hm
        by_cases hc : join_ns m RETURN_NAME = ret
        · rw [hc, lookupA_updA_self]; rfl
        · rw [lookupA_updA_ne _ _ _ _ hc]
          by_cases hc2 : join_ns m RETURN_NAME = ns
          · rw [hc2, lookupA_updA_self]; rfl
          · rw [lookupA_updA_ne _ _ _ _ hc2]
            exact h m d hm ht
  · simp only [if_neg hfun]
    intro m d hm ht
    by_cases hmn : m = ns
    · subst hmn
      rw [lookupA_updA_self] at hm
      injection hm with hd
      rw [← hd] at ht
      simp only [Defn.merge, Defn.init] at ht
      exact absurd ht hfun
    · rw [lookupA_updA_ne _ _ _ _ hmn] at hm
      by_cases hc : join_ns m RETURN_NAME = ns
      · rw [hc, lookupA_updA_self]; rfl
      · rw [lookupA_updA_ne _ _ _ _ hc]
        exact h m d hm ht

/-- C9: for every definition store built by a sequence of
`handle_function_def` and `assign` operations, every definition of type FUN
has the companion `<fullns>.<return>` definition present in the store. -/
theorem fun_defs_have_return_companion (ops : List DefOp) (ns : String) (d : Defn)
    (hlk : lookupA (runDefOps ops) ns = some d) (ht : d.def_type = DefType.FUN) :
    (lookupA (runDefOps ops) (join_ns ns RETURN_NAME)).isSome := by
  have hgen : ∀ (l : List DefOp) (s : Store), FunHasReturn s →
      FunHasReturn (l.foldl applyDefOp s) := by
    intro l
    induction l with
    | nil => intro s hs; exact hs
    | cons op rest ih =>
      intro s hs
      refine ih (applyDefOp s op) ?_
      cases op with
      | hfd parent fn => exact funHasReturn_hfd s parent fn hs
      | asgn m defi => exact funHasReturn_assign s m defi hs
  have base : FunHasReturn ([] : Store) := by
    intro m d hm ht
    cases hm
  exact hgen ops [] base ns d hlk ht

/-- C9 witness: after `handle_function_def("mod", "f")`, the FUN definition
`mod.f` has its `mod.f.<return>` companion. -/
theorem fun_defs_have_return_companion_witness :
    (lookupA (runDefOps [DefOp.hfd "mod" "f"]) (join_ns "mod.f" RETURN_NAME)).isSome :=
  fun_defs_have_return_companion [DefOp.hfd "mod" "f"] "mod.f"
    (Defn.init "mod.f" DefType.FUN) (by rfl) (by rfl)

/-! ## CallGraph (pycg/machinery/callgraph.py) -/

/-- One per-edge metadata record appended to `cg_extended[src]["dsts"]`. -/
structure DstRec where
  dst : String
  lineno : Int
  mod : String
  ext_mod : String
deriving DecidableEq, Repr

/-- The call graph state: `cg` (caller to callee set), `cg_extended`
(per-node destination records and meta modname), `modnames`. -/
structure CallGraph where
  cg : List (String × List String)
  cg_extended : List (String × (List DstRec × String))
  modnames : List (String × String)
deriving DecidableEq, Repr

/-- `CallGraph.__init__` (entry points and line numbers are irrelevant to
claim C10 and omitted). -/
def CallGraph.init : CallGraph := ⟨[], [], []⟩

/-- The node-creation step of `add_node`: when the name is not yet a key of
`cg`, create the node with an empty callee set in all three maps. -/
def addNodeCreate (g : CallGraph) (name modname : String) : CallGraph :=
  match lookupA g.cg name with
  | some _ => g
  | none =>
    { cg := g.cg ++ [(name, [])],
      cg_extended := g.cg_extended ++ [(name, ([], modname))],
      modnames := g.modnames ++ [(name, modname)] }

/-- The modname-backfill step of `add_node`: overwrite an empty recorded
modname in `modnames`, else backfill an empty `cg_extended` meta modname. -/
def addNodeModname (g1 : CallGraph) (name modname : String) : CallGraph :=
  if (lookupA g1.modnames name).getD "" = "" then
    { g1 with modnames := updA g1.modnames name modname }
  else
    if (((lookupA g1.cg_extended name).map Prod.snd).getD "") = "" then
      let keptDsts := ((lookupA g1.cg_extended name).getD ([], "")).1
      { g1 with cg_extended := updA g1.cg_extended name (keptDsts, modname) }
    else
      g1

/-- `CallGraph.add_node(name, modname)`: raises on an empty name; the rest of
the body (node creation, then modname backfill) never raises. -/
def CallGraph.add_node (g : CallGraph) (name modname : String) :
    Except String CallGraph :=
  if name = "" then Except.error "Empty node name"
  else Except.ok (addNodeModname (addNodeCreate g name modname) name modname)

/-- The mutation performed by `add_edge` once both endpoints exist:
`cg[src].add(dest)` and the `cg_extended[src]["dsts"]` append. -/
def addEdgeRecord (g2 : CallGraph) (src dest : String) (lineno : Int)
    (mod ext_mod : String) : CallGraph :=
  let cur := (lookupA g2.cg src).getD []
  let g3 := { g2 with cg := updA g2.cg src (addElem cur dest) }
  let ext := (lookupA g3.cg_extended src).getD ([], "")
  let newRec : DstRec := ⟨dest, lineno, mod, ext_mod⟩
  { g3 with cg_extended := updA g3.cg_extended src (ext.1 ++ [newRec], ext.2) }

/-- `CallGraph.add_edge(src, dest, lineno, mod, ext_mod)`: add both endpoints
as nodes, record `dest` in `cg[src]`, append the extended record. -/
def CallGraph.add_edge (g : CallGraph) (src dest : String) (lineno : Int)
    (mod ext_mod : String) : Except String CallGraph :=
  match g.add_node src mod with
  | Except.error e => Except.error e
  | Except.ok g1 =>
    match g1.add_node dest "" with
    | Except.error e => Except.error e
    | Except.ok g2 => Except.ok (addEdgeRecord g2 src dest lineno mod ext_mod)

/-- One operation of claim C10. -/
inductive CGOp where
  | node : String → String → CGOp
  | edge : String → String → Int → String → String → CGOp
deriving Repr

/-- Apply one operation (propagating the typed exceptions). -/
def applyCGOp (g : CallGraph) : CGOp → Except String CallGraph
  | CGOp.node name mod => g.add_node name mod
  | CGOp.edge src dest lineno mod ext => g.add_edge src dest lineno mod ext

/-- Run a sequence of operations on a fresh call graph. -/
def runCGOps : CallGraph → List CGOp → Except String CallGraph
  | g, [] => Except.ok g
  | g, op :: rest =>
    match applyCGOp g op with
    | Except.error e => Except.error e
    | Except.ok g2 => runCGOps g2 rest

theorem lookupA_append {α β : Type} [DecidableEq α] (l1 l2 : List (α × β)) (k : α) :
    lookupA (l1 ++ l2) k =
      if (lookupA l1 k).isSome then lookupA l1 k else lookupA l2 k := by
  induction l1 with
  | nil => simp [lookupA]
  | cons p rest ih =>
    by_cases h : p.1 = k
    · simp [lookupA, h]
    · simp [lookupA, h, ih]

theorem mem_addElem_elim (l : List String) (x y : String) (h : y ∈ addElem l x) :
    y ∈ l ∨ y = x := by
  unfold addElem at h
  split at h
  · exact Or.inl h
  · rcases List.mem_append.mp h with h | h
    · exact Or.inl h
    · simp only [List.mem_singleton] at h
      exact Or.inr h

/-- The closure invariant of claim C10: every recorded callee is a node key
of `cg`. -/
def CgClosed (g : CallGraph) : Prop :=
  ∀ src dsts, lookupA g.cg src = some dsts →
    ∀ d, d ∈ dsts → (lookupA g.cg d).isSome

theorem addNodeModname_cg (g1 : CallGraph) (name modname : String) :
    (addNodeModname g1 name modname).cg = g1.cg := by
  unfold addNodeModname
  split
  · rfl
  · split
    · rfl
    · rfl

theorem addNodeCreate_cg_lookup (g : CallGraph) (name modname k : String) :
    lookupA (addNodeCreate g name modname).cg k =
      (if (lookupA g.cg k).isSome then lookupA g.cg k
       else lookupA [(name, ([] : List String))] k) := by
  unfold addNodeCreate
  cases hlk : lookupA g.cg name with
  | some v =>
    cases hk : lookupA g.cg k with
    | some v2 => simp [hk]
    | none =>
      by_cases hkn : name = k
      · subst hkn; rw [hlk] at hk; cases hk
      · simp [lookupA, hkn]
  | none =>
    show lookupA (g.cg ++ [(name, [])]) k = _
    exact lookupA_append g.cg [(name, [])] k

/-- `add_node` leaves every existing `cg` entry in place (it only ever
appends a fresh node). -/
theorem add_node_cg_lookup (g g2 : CallGraph) (name modname : String)
    (h : g.add_node name modname = Except.ok g2) (k : String) :
    lookupA g2.cg k =
      (if (lookupA g.cg k).isSome then lookupA g.cg k
       else lookupA [(name, ([] : List String))] k) := by
  unfold CallGraph.add_node at h
  split at h
  · cases h
  · injection h with h2
    rw [← h2, addNodeModname_cg, addNodeCreate_cg_lookup]

theorem add_node_cg_isSome (g g2 : CallGraph) (name modname : String)
    (h : g.add_node name modname = Except.ok g2) :
    (lookupA g2.cg name).isSome := by
  rw [add_node_cg_lookup g g2 name modname h name]
  cases hlk : lookupA g.cg name with
  | some v => simp
  | none => simp [lookupA]

theorem add_node_cg_isSome_mono (g g2 : CallGraph) (name modname k : String)
    (h : g.add_node name modname = Except.ok g2)
    (hk : (lookupA g.cg k).isSome) : (lookupA g2.cg k).isSome := by
  rw [add_node_cg_lookup g g2 name modname h k]
  rw [if_pos hk]
  exact hk

theorem cgClosed_add_node (g g2 : CallGraph) (name modname : String)
    (h : g.add_node name modname = Except.ok g2) (hc : CgClosed g) :
    CgClosed g2 := by
  intro src dsts hsrc d hd
  rw [add_node_cg_lookup g g2 name modname h src] at hsrc
  cases hls : lookupA g.cg src with
  | some v =>
    rw [hls] at hsrc
    simp only [Option.isSome_some, if_pos] at hsrc
    injection hsrc with hv
    subst hv
    exact add_node_cg_isSome_mono g g2 name modname d h (hc src v hls d hd)
  | none =>
    rw [hls] at hsrc
    simp only [Option.isSome_none, Bool.false_eq_true, if_false, lookupA] at hsrc
    split at hsrc
    · injection hsrc with hv
      subst hv
      cases hd
    · cases hsrc

theorem cgClosed_add_edge (g g2 : CallGraph) (src dest : String) (lineno : Int)
    (mod ext_mod : String) (h : g.add_edge src dest lineno mod ext_mod = Except.ok g2)
    (hc : CgClosed g) : CgClosed g2 := by
  unfold CallGraph.add_edge at h
  cases h1 : g.add_node src mod with
  | error e => simp only [h1] at h; exact Except.noConfusion h
  | ok ga =>
    simp only [h1] at h
    cases h2 : ga.add_node dest "" with
    | error e => simp only [h2] at h; exact Except.noConfusion h
    | ok gb =>
      simp only [h2] at h
      injection h with hg2
      have hca : CgClosed ga := cgClosed_add_node g ga src mod h1 hc
      have hcb : CgClosed gb := cgClosed_add_node ga gb dest "" h2 hca
      have hsrcb : (lookupA gb.cg src).isSome :=
        add_node_cg_isSome_mono ga gb dest "" src h2 (add_node_cg_isSome g ga src mod h1)
      have hdestb : (lookupA gb.cg dest).isSome := add_node_cg_isSome ga gb dest "" h2
      have hg2cg : g2.cg = updA gb.cg src (addElem ((lookupA gb.cg src).getD []) dest) := by
        rw [← hg2]; rfl
      intro s dsts hs d hd
      have hkey : ∀ kk, (lookupA gb.cg kk).isSome → (lookupA g2.cg kk).isSome := by
        intro kk hk
        rw [hg2cg]
        by_cases hks : kk = src
        · subst hks; rw [lookupA_updA_self]; rfl
        · rw [lookupA_updA_ne _ _ _ _ hks]; exact hk
      by_cases hssrc : s = src
      · subst hssrc
        rw [hg2cg, lookupA_updA_self] at hs
        injection hs with hv
        subst hv
        rcases mem_addElem_elim _ _ _ hd with hd | hd
        · cases hcur : lookupA gb.cg s with
          | some cur =>
            have hcg : ((lookupA gb.cg s).getD []) = cur := by rw [hcur]; rfl
            rw [hcg] at hd
            exact hkey d (hcb s cur hcur d hd)
          | none => rw [hcur] at hsrcb; cases hsrcb
        · subst hd
          exact hkey d hdestb
      · rw [hg2cg, lookupA_updA_ne _ _ _ _ hssrc] at hs
        exact hkey d (hcb s dsts hs d hd)

/-- C10: after any sequence of `add_node` / `add_edge` operations on a fresh
call graph that did not raise, every callee recorded in `cg` is itself a node
key of `cg` (the graph is closed under references). -/
theorem callgraph_closed (ops : List CGOp) (g : CallGraph)
    (hrun : runCGOps CallGraph.init ops = Except.ok g)
    (src : String) (dsts : List String) (hsrc : lookupA g.cg src = some dsts)
    (d : String) (hd : d ∈ dsts) : (lookupA g.cg d).isSome := by
  have hgen : ∀ (l : List CGOp) (g0 : CallGraph), CgClosed g0 →
      runCGOps g0 l = Except.ok g → CgClosed g := by
    intro l
    induction l with
    | nil =>
      intro g0 h0 hr
      simp only [runCGOps] at hr
      injection hr with hh
      subst hh
      exact h0
    | cons op rest ih =>
      intro g0 h0 hr
      simp only [runCGOps] at hr
      cases happ : applyCGOp g0 op with
      | error e => simp only [happ] at hr; exact Except.noConfusion hr
      | ok gmid =>
        simp only [happ] at hr
        refine ih gmid ?_ hr
        cases op with
        | node name mod => exact cgClosed_add_node g0 gmid name mod happ h0
        | edge s t lineno mod ext => exact cgClosed_add_edge g0 gmid s t lineno mod ext happ h0
  have hbase : CgClosed CallGraph.init := by
    intro s ds hs
    cases hs
  exact hgen ops CallGraph.init hbase hrun src dsts hsrc d hd

/-- C10 witness: after `add_edge("f", "g")` the callee `g` is a node key. -/
theorem callgraph_closed_witness :
    (lookupA
      { cg := [("f", ["g"]), ("g", [])],
        cg_extended := [("f", ([⟨"g", 4, "m", ""⟩], "m")), ("g", ([], ""))],
        modnames := [("f", "m"), ("g", "")] : CallGraph}.cg "g").isSome :=
  callgraph_closed [CGOp.edge "f" "g" 4 "m" ""]
    { cg := [("f", ["g"]), ("g", [])],
      cg_extended := [("f", ([⟨"g", 4, "m", ""⟩], "m")), ("g", ([], ""))],
      modnames := [("f", "m"), ("g", "")] }
    (by rfl) "f" ["g"] (by rfl) "g" (by decide)

/-! ## `DefinitionManager.transitive_closure`

The Python routine is a memoized depth-first search over `name_pointer`
values.  The memo dict `closured` maps a namespace to the *same set object*
being built by its frame, so updates through `new_set` are visible through
the memo; the model therefore re-reads and re-stores the entry after every
target.  Recursion is modelled with fuel; `defs.length + 1` bounds the
recursion depth because every nested call is on a store key absent from the
memo and immediately memoizes it (the theorems below hold for the chosen
budget independently of that bound). -/

/-- The memo dict `closured`. -/
def ClosMap := List (String × List String)

/-- `defi.name_pointer.values` read through the store (empty for a missing
namespace; `dfs` is only ever called on store keys). -/
def npValuesOf (defs : Store) (ns : String) : List String :=
  match lookupA defs ns with
  | some d => d.name_pointer.values
  | none => []

/-- The `for name in name_pointer.values` loop of `dfs`: skip targets absent
from the store, recurse (`rec` is the depth-first search at one smaller
fuel), substitute `{name}` for an empty result, and union into the aliased
memo entry of `ns`. -/
def dfsLoopF (defs : Store) (rec : ClosMap → String → ClosMap × List String)
    (ns : String) : ClosMap → List String → ClosMap
  | st, [] => st
  | st, name :: rest =>
    if (lookupA defs name).isNone then dfsLoopF defs rec ns st rest
    else
      let p := rec st name
      let items := if p.2.isEmpty then [name] else p.2
      let cur := (lookupA p.1 ns).getD []
      dfsLoopF defs rec ns (updA p.1 ns (addSet cur items)) rest

/-- The memoized `dfs` of `transitive_closure` (fuelled). -/
def dfs (defs : Store) : Nat → ClosMap → String → ClosMap × List String
  | 0, st, _ => (st, [])
  | Nat.succ fuel, st, ns =>
    match lookupA st ns with
    | some s => (st, s)
    | none =>
      let vals := npValuesOf defs ns
      let st1 := updA st ns (if vals.isEmpty then [ns] else [])
      let st2 := dfsLoopF defs (fun st m => dfs defs fuel st m) ns st1 vals
      (st2, (lookupA st2 ns).getD [])

/-- `DefinitionManager.transitive_closure()`: run `dfs` from every
not-yet-memoized definition, in store order. -/
def transitive_closure (defs : Store) : ClosMap :=
  defs.foldl
    (fun st p =>
      if (lookupA st p.1).isSome then st else (dfs defs (defs.length + 1) st p.1).1)
    []

/-- The closure set of a namespace in the returned mapping. -/
def closureOf (cl : ClosMap) (ns : String) : List String :=
  (lookupA cl ns).getD []

/-- Claim C1's property as a decidable check over a store: every namespace
with empty `name_pointer.values` maps to `{ns}`; every other namespace maps
to the union of its targets' closures (skipping absent targets and
substituting `{n}` for a target with empty closure); and `ns ∈ closure[ns]`
iff the name pointer is empty or self-pointing. -/
def c1ClaimHolds (defs : Store) : Bool :=
  let cl := transitive_closure defs
  defs.all (fun p =>
    let ns := p.1
    let vals := p.2.name_pointer.values
    let unionTargets :=
      vals.foldl (fun acc n =>
        if (lookupA defs n).isNone then acc
        else addSet acc (if (closureOf cl n).isEmpty then [n] else closureOf cl n)) []
    (if vals.isEmpty then setEqB (closureOf cl ns) [ns]
     else setEqB (closureOf cl ns) unionTargets) &&
    (decide (ns ∈ closureOf cl ns) == (vals.isEmpty || decide (ns ∈ vals))))

/-- A definition whose name pointer holds exactly the given values. -/
def defnWithValues (ns : String) (vals : List String) : Defn :=
  { Defn.init ns DefType.NAME with
    name_pointer := { NamePtr.init with values := vals } }

/-- The two-definition store `a ↦ {b}, b ↦ {a}` (a points-to cycle). -/
def cycleStore : Store :=
  [("a", defnWithValues "a" ["b"]), ("b", defnWithValues "b" ["a"])]

/-- C1 counterexample: on the cyclic store `a ↦ {b}, b ↦ {a}` the routine
returns `a ↦ {a}, b ↦ {a}`; `a ∈ closure[a]` although `a`'s name pointer is
neither empty nor self-pointing (the depth-first search hands the in-progress
empty memo entry of `a` to `b`, which substitutes `{a}`), so the claimed
property is false. -/
theorem transitive_closure_cycle_counterexample :
    transitive_closure cycleStore = [("a", ["a"]), ("b", ["a"])] ∧
    c1ClaimHolds cycleStore = false := by
  refine ⟨by rfl, by rfl⟩

theorem dfsLoopF_preserve (defs : Store) (rec : ClosMap → String → ClosMap × List String)
    (ns : String)
    (hrec : ∀ st m k v, lookupA st k = some v → lookupA (rec st m).1 k = some v) :
    ∀ (l : List String) (st : ClosMap) (k : String) (v : List String),
      lookupA st k = some v → k ≠ ns → lookupA (dfsLoopF defs rec ns st l) k = some v := by
  intro l
  induction l with
  | nil => intro st k v hk hne; exact hk
  | cons name rest ih =>
    intro st k v hk hne
    show lookupA (if (lookupA defs name).isNone then dfsLoopF defs rec ns st rest
      else dfsLoopF defs rec ns
        (updA (rec st name).1 ns
          (addSet ((lookupA (rec st name).1 ns).getD [])
            (if (rec st name).2.isEmpty then [name] else (rec st name).2))) rest) k = some v
    split
    · exact ih st k v hk hne
    · refine ih _ k v ?_ hne
      rw [lookupA_updA_ne _ _ _ _ hne]
      exact hrec st name k v hk

theorem dfs_preserve (defs : Store) :
    ∀ (fuel : Nat) (st : ClosMap) (m k : String) (v : List String),
      lookupA st k = some v → lookupA (dfs defs fuel st m).1 k = some v := by
  intro fuel
  induction fuel with
  | zero => intro st m k v hk; exact hk
  | succ fuel ih =>
    intro st m k v hk
    show lookupA (match lookupA st m with
      | some s => (st, s)
      | none =>
        let vals := npValuesOf defs m
        let st1 := updA st m (if vals.isEmpty then [m] else [])
        let st2 := dfsLoopF defs (fun st mm => dfs defs fuel st mm) m st1 vals
        (st2, (lookupA st2 m).getD [])).1 k = some v
    cases hm : lookupA st m with
    | some s => exact hk
    | none =>
      have hne : k ≠ m := by
        intro he
        rw [he, hm] at hk
        cases hk
      show lookupA (dfsLoopF defs (fun st mm => dfs defs fuel st mm) m
        (updA st m (if (npValuesOf defs m).isEmpty then [m] else []))
        (npValuesOf defs m)) k = some v
      refine dfsLoopF_preserve defs _ m (fun st mm kk vv hkk => ih st mm kk vv hkk)
        (npValuesOf defs m) _ k v ?_ hne
      rw [lookupA_updA_ne _ _ _ _ hne]
      exact hk

/-- The stability predicate for the C1 amendment: the memo entry of a
namespace `ns` whose name pointer is empty is either unset or `[ns]`. -/
def SelfEntry (ns : String) (st : ClosMap) : Prop :=
  lookupA st ns = none ∨ lookupA st ns = some [ns]

theorem dfsLoopF_selfEntry (defs : Store) (ns : String)
    (rec : ClosMap → String → ClosMap × List String)
    (hrec : ∀ st m, SelfEntry ns st → SelfEntry ns (rec st m).1)
    (m : String) (hm : m ≠ ns) :
    ∀ (l : List String) (st : ClosMap), SelfEntry ns st →
      SelfEntry ns (dfsLoopF defs rec m st l) := by
  intro l
  induction l with
  | nil => intro st h; exact h
  | cons name rest ih =>
    intro st h
    show SelfEntry ns (if (lookupA defs name).isNone then dfsLoopF defs rec m st rest
      else dfsLoopF defs rec m
        (updA (rec st name).1 m
          (addSet ((lookupA (rec st name).1 m).getD [])
            (if (rec st name).2.isEmpty then [name] else (rec st name).2))) rest)
    split
    · exact ih st h
    · refine ih _ ?_
      have h2 := hrec st name h
      cases h2 with
      | inl h2 =>
        exact Or.inl (by rw [lookupA_updA_ne _ _ _ _ (fun he => hm he.symm) ] at *; exact h2)
      | inr h2 =>
        exact Or.inr (by rw [lookupA_updA_ne _ _ _ _ (fun he => hm he.symm) ] at *; exact h2)

theorem dfs_selfEntry (defs : Store) (ns : String)
    (hval : npValuesOf defs ns = []) :
    ∀ (fuel : Nat) (st : ClosMap) (m : String), SelfEntry ns st →
      SelfEntry ns (dfs defs fuel st m).1 := by
  intro fuel
  induction fuel with
  | zero => intro st m h; exact h
  | succ fuel ih =>
    intro st m h
    show SelfEntry ns (match lookupA st m with
      | some s => (st, s)
      | none =>
        let vals := npValuesOf defs m
        let st1 := updA st m (if vals.isEmpty then [m] else [])
        let st2 := dfsLoopF defs (fun st mm => dfs defs fuel st mm) m st1 vals
        (st2, (lookupA st2 m).getD [])).1
    cases hm : lookupA st m with
    | some s => exact h
    | none =>
      by_cases hmn : m = ns
      · subst hmn
        show SelfEntry m (dfsLoopF defs (fun st mm => dfs defs fuel st mm) m
          (updA st m (if (npValuesOf defs m).isEmpty then [m] else []))
          (npValuesOf defs m))
        rw [hval]
        show SelfEntry m (updA st m [m])
        exact Or.inr (lookupA_updA_self st m [m])
      · show SelfEntry ns (dfsLoopF defs (fun st mm => dfs defs fuel st mm) m
          (updA st m (if (npValuesOf defs m).isEmpty then [m] else []))
          (npValuesOf defs m))
        refine dfsLoopF_selfEntry defs ns _ (fun st mm hh => ih st mm hh) m hmn
          (npValuesOf defs m) _ ?_
        cases h with
        | inl h1 => exact Or.inl (by rw [lookupA_updA_ne _ _ _ _ (fun he => hmn he.symm)]; exact h1)
        | inr h1 => exact Or.inr (by rw [lookupA_updA_ne _ _ _ _ (fun he => hmn he.symm)]; exact h1)

theorem dfs_sets_self (defs : Store) (ns : String) (hval : npValuesOf defs ns = [])
    (fuel : Nat) (st : ClosMap) (hst : lookupA st ns = none) :
    lookupA (dfs defs (fuel + 1) st ns).1 ns = some [ns] := by
  show lookupA (match lookupA st ns with
    | some s => (st, s)
    | none =>
      let vals := npValuesOf defs ns
      let st1 := updA st ns (if vals.isEmpty then [ns] else [])
      let st2 := dfsLoopF defs (fun st mm => dfs defs fuel st mm) ns st1 vals
      (st2, (lookupA st2 ns).getD [])).1 ns = some [ns]
  rw [hst, hval]
  exact lookupA_updA_self st ns [ns]

theorem lookupA_mem {α β : Type} [DecidableEq α] (l : List (α × β)) (k : α) (v : β)
    (h : lookupA l k = some v) : (k, v) ∈ l := by
  induction l with
  | nil => cases h
  | cons p rest ih =>
    simp only [lookupA] at h
    by_cases heq : p.1 = k
    · rw [if_pos heq] at h
      injection h with hv
      have hp : p = (k, v) := Prod.ext heq hv
      rw [hp]
      exact List.mem_cons_self _ _
    · rw [if_neg heq] at h
      exact List.mem_cons_of_mem _ (ih h)

/-- C1 (amended): `transitive_closure()` maps every namespace whose
`name_pointer.values` is empty to exactly `{ns}` (hence `ns ∈ closure[ns]`).
On cyclic stores the remaining parts of the claim — the union equation and
the only-if direction of the membership criterion — fail, as the
counterexample shows. -/
theorem transitive_closure_empty_values (defs : Store) (ns : String) (d : Defn)
    (hlk : lookupA defs ns = some d) (hval : d.name_pointer.values = []) :
    lookupA (transitive_closure defs) ns = some [ns] := by
  have hnp : npValuesOf defs ns = [] := by
    simp only [npValuesOf, hlk]
    exact hval
  set F := defs.length + 1 with hF
  set f : ClosMap → String × Defn → ClosMap :=
    fun st p => if (lookupA st p.1).isSome then st else (dfs defs F st p.1).1 with hf
  have stepSelf : ∀ st p, SelfEntry ns st → SelfEntry ns (f st p) := by
    intro st p h
    rw [hf]
    dsimp only
    split
    · exact h
    · exact dfs_selfEntry defs ns hnp F st p.1 h
  have foldSelf : ∀ (l : List (String × Defn)) (st : ClosMap), SelfEntry ns st →
      SelfEntry ns (l.foldl f st) := by
    intro l
    induction l with
    | nil => intro st h; exact h
    | cons p rest ih => intro st h; exact ih (f st p) (stepSelf st p h)
  have stepKeep : ∀ st p, lookupA st ns = some [ns] → lookupA (f st p) ns = some [ns] := by
    intro st p h
    rw [hf]
    dsimp only
    split
    · exact h
    · exact dfs_preserve defs F st p.1 ns [ns] h
  have foldKeep : ∀ (l : List (String × Defn)) (st : ClosMap),
      lookupA st ns = some [ns] → lookupA (l.foldl f st) ns = some [ns] := by
    intro l
    induction l with
    | nil => intro st h; exact h
    | cons p rest ih => intro st h; exact ih (f st p) (stepKeep st p h)
  obtain ⟨l1, l2, hsplit⟩ := List.append_of_mem (lookupA_mem defs ns d hlk)
  show lookupA (defs.foldl f []) ns = some [ns]
  rw [hsplit, List.foldl_append]
  set st1 := l1.foldl f [] with hst1
  have hself1 : SelfEntry ns st1 := foldSelf l1 [] (Or.inl rfl)
  show lookupA (l2.foldl f (f st1 (ns, d))) ns = some [ns]
  refine foldKeep l2 _ ?_
  rw [hf]
  dsimp only
  cases hself1 with
  | inl h1 =>
    rw [h1]
    simp only [Option.isSome_none, Bool.false_eq_true, if_false]
    have : F = defs.length + 1 := hF
    cases hFeq : F with
    | zero => rw [hFeq] at this; omega
    | succ f2 => exact dfs_sets_self defs ns hnp f2 st1 h1
  | inr h1 =>
    rw [h1]
    simp only [Option.isSome_some, if_true]
    exact h1

/-- C1 witness: the amended theorem applied to the one-definition store
`x ↦ ∅`: the closure maps `x` to `{x}`. -/
theorem transitive_closure_empty_values_witness :
    lookupA (transitive_closure [("x", defnWithValues "x" [])]) "x" = some ["x"] :=
  transitive_closure_empty_values [("x", defnWithValues "x" [])] "x"
    (defnWithValues "x" []) (by rfl) (by rfl)

/-! ## `DefinitionManager.complete_definitions`

The iterated argument-propagation pass.  Python mutates live `set` objects
reached through aliases; the model addresses each set by its store location and
re-reads it at every use, which is equivalent because the code never
rebinds a set object, only mutates it in place.  Two faithful details:

* `changed_something = changed_something or update_pointsto_args(...)`
  short-circuits — once a pass has recorded a change, the remaining
  `update_pointsto_args` calls of that pass are *not executed*;
* the additions made by the `add_pos_arg` / `add_arg` fallback branches are
  not tracked in `changed_something`;
* the guard `pointsto_arg_def == pointsto_args` compares a `NamePointer`
  with a `set`; both `__eq__`s return `NotImplemented`, so the comparison is
  always false and the `continue` under it is dead code, omitted here. -/

/-- The name pointer stored at `ns` (fresh when the namespace is absent —
only used at present keys). -/
def npOf (s : Store) (ns : String) : NamePtr :=
  match lookupA s ns with
  | some d => d.name_pointer
  | none => NamePtr.init

/-- The live argument set `defs[ns].name_pointer.args[key]`. -/
def getArgSet (s : Store) (ns key : String) : List String :=
  (lookupA (npOf s ns).args key).getD []

/-- Replace the name pointer of the definition stored at `ns` (every other
entry untouched). -/
def modNP (s : Store) (ns : String) (f : NamePtr → NamePtr) : Store :=
  s.map (fun p =>
    if p.1 = ns then (p.1, { p.2 with name_pointer := f p.2.name_pointer }) else p)

/-- `update_pointsto_args(pointsto_args, arg, name)`: `pointsto_args` lives at
`defs[calleeNs].args[key]`, `arg` at `defs[callerNs].args[argName]`, and
`name` is the caller's namespace.  For each known pointed-to target (other
than the caller): remove it from the caller's set when present (the cycle
guard), then push every element of the caller's set that is a known
definition into the target's `values`, recording growth. -/
def update_pointsto_args (defs : Store) (calleeNs key callerNs argName : String) :
    Store × Bool :=
  let pointstoArgs := getArgSet defs calleeNs key
  let arg := getArgSet defs callerNs argName
  if setEqB arg pointstoArgs then (defs, false)
  else
    pointstoArgs.foldl
      (fun acc pa =>
        if (lookupA acc.1 pa).isNone then acc
        else if pa = callerNs then acc
        else
          let s1 :=
            if pa ∈ getArgSet acc.1 callerNs argName then
              modNP acc.1 callerNs (fun np =>
                let shrunk := (getArgSet acc.1 callerNs argName).erase pa
                { np with args := updA np.args argName shrunk })
            else acc.1
          (getArgSet s1 callerNs argName).foldl
            (fun acc2 item =>
              let vals := (npOf acc2.1 pa).values
              let changed2 := acc2.2 || (!(decide (item ∈ vals)) && (lookupA acc2.1 item).isSome)
              if (lookupA acc2.1 item).isNone then (acc2.1, changed2)
              else (modNP acc2.1 pa (fun np => np.add item), changed2))
            (s1, acc.2))
      (defs, false)

/-- The body of the per-target loop of `complete_definitions` (current
definition `ns`, one pointed-to namespace `name`): for every argument of the
current definition, push it into the callee's matching parameter — by
positional index when `name_to_pos` knows the argument, else by name; a
missing or empty callee parameter is filled via the untracked
`add_pos_arg` / `add_arg` branch. -/
def processName (defs : Store) (ns name : String) (changed : Bool) : Store × Bool :=
  if name = ns then (defs, changed)
  else if (lookupA defs name).isNone then (defs, changed)
  else
    ((npOf defs ns).args.map Prod.fst).foldl
      (fun acc argName =>
        let cnp := npOf acc.1 ns
        let pnp := npOf acc.1 name
        match lookupA cnp.name_to_pos argName with
        | some pos =>
          let ptargs : Option (List String) :=
            match lookupA pnp.pos_to_name pos with
            | some n2 => if n2 = "" then none else lookupA pnp.args n2
            | none => none
          match ptargs with
          | none =>
            (modNP acc.1 name (fun np =>
              np.add_pos_arg pos none (ArgItem.many (getArgSet acc.1 ns argName))), acc.2)
          | some l =>
            if l.isEmpty then
              (modNP acc.1 name (fun np =>
                np.add_pos_arg pos none (ArgItem.many (getArgSet acc.1 ns argName))), acc.2)
            else
              let key := (lookupA pnp.pos_to_name pos).getD ""
              if acc.2 then (acc.1, true)
              else update_pointsto_args acc.1 name key ns argName
        | none =>
          match lookupA pnp.args argName with
          | none =>
            (modNP acc.1 name (fun np =>
              np.add_arg argName (ArgItem.many (getArgSet acc.1 ns argName))), acc.2)
          | some l =>
            if l.isEmpty then
              (modNP acc.1 name (fun np =>
                np.add_arg argName (ArgItem.many (getArgSet acc.1 ns argName))), acc.2)
            else
              if acc.2 then (acc.1, true)
              else update_pointsto_args acc.1 name argName ns argName)
      (defs, changed)

/-- One current definition of a pass: iterate over a snapshot
(`values.copy()`) of the namespaces it points to. -/
def processDef (defs : Store) (ns : String) (changed : Bool) : Store × Bool :=
  ((npOf defs ns).values).foldl
    (fun acc name => processName acc.1 ns name acc.2) (defs, changed)

/-- One full pass of `complete_definitions` over every definition, in store
order, with the shared `changed_something` flag. -/
def passOnce (defs : Store) : Store × Bool :=
  (defs.map Prod.fst).foldl (fun acc ns => processDef acc.1 ns acc.2) (defs, false)

/-- The outer `for i in range(len(self.defs))` loop: run passes, stopping
early after a pass that reported no change. -/
def completeDefsGo : Nat → Store → Store
  | 0, defs => defs
  | n + 1, defs =>
    let p := passOnce defs
    if p.2 then completeDefsGo n p.1 else p.1

/-- `DefinitionManager.complete_definitions()`. -/
def complete_definitions (defs : Store) : Store :=
  completeDefsGo defs.length defs

/-- A definition with given name pointer values and argument sets. -/
def defnVA (ns : String) (vals : List String) (args : List (String × List String)) : Defn :=
  { Defn.init ns DefType.NAME with
    name_pointer := { NamePtr.init with values := vals, args := args } }

/-- The values set of the definition stored at a namespace. -/
def valuesOfStore (s : Store) (ns : String) : List String :=
  (npOf s ns).values

/-- The C2 counterexample store: `B ↦ {C}` with no arguments yet, `A ↦ {B}`
with argument `x = {v}`, `C` with argument `x = {w}`, and plain definitions
`w`, `v`. -/
def c2Store : Store :=
  [("B", defnVA "B" ["C"] []),
   ("A", defnVA "A" ["B"] [("x", ["v"])]),
   ("C", defnVA "C" [] [("x", ["w"])]),
   ("w", defnVA "w" [] []),
   ("v", defnVA "v" [] [])]

/-- C2 counterexample: the first run of `complete_definitions` copies `A`'s
argument `x = {v}` into `B` through the untracked `add_arg` branch and then
stops with `changed_something` still false; the second run propagates the
new argument through `C`'s parameter into `w`'s name pointer, so running the
routine a second time adds the element `v` to `w`'s values. -/
theorem complete_definitions_not_idempotent :
    valuesOfStore (complete_definitions c2Store) "w" = [] ∧
    valuesOfStore (complete_definitions (complete_definitions c2Store)) "w" = ["v"] := by
  refine ⟨by rfl, by rfl⟩

/-- C2 (amended): `complete_definitions` is idempotent on true fixpoints: if
one pass leaves the store unchanged and reports no change, the whole routine
is the identity (so a second run adds nothing).  A run that merely
terminated need not leave such a store, as the counterexample shows. -/
theorem complete_definitions_fixpoint (defs : Store)
    (h : passOnce defs = (defs, false)) : complete_definitions defs = defs := by
  unfold complete_definitions
  cases hn : defs.length with
  | zero => rfl
  | succ n =>
    show completeDefsGo (n + 1) defs = defs
    simp only [completeDefsGo, h]
    rfl

/-- C2 witness: the one-definition store `a` (no pointed-to names) is a pass
fixpoint, and `complete_definitions` leaves it unchanged. -/
theorem complete_definitions_fixpoint_witness :
    complete_definitions [("a", defnVA "a" [] [])] = [("a", defnVA "a" [] [])] :=
  complete_definitions_fixpoint [("a", defnVA "a" [] [])] (by rfl)

/-- The C3 counterexample store: `D ↦ {N}` with argument `a = {p, q}`, `N`
with existing parameter `a = {p}`, and plain definitions `p`, `q`. -/
def c3Store : Store :=
  [("D", defnVA "D" ["N"] [("a", ["p", "q"])]),
   ("N", defnVA "N" [] [("a", ["p"])]),
   ("p", defnVA "p" [] []),
   ("q", defnVA "q" [] [])]

/-- C3 counterexample: propagating `D`'s argument `a = {p, q}` into `N`'s
parameter `a = {p}` hits the cycle guard `arg.remove(pointsto_arg)`, which
removes `p` from `D`'s own argument set — so `complete_definitions` does
remove elements from argument sets. -/
theorem complete_definitions_removes_arg :
    "p" ∈ getArgSet c3Store "D" "a" ∧
    "p" ∉ getArgSet (complete_definitions c3Store) "D" "a" ∧
    getArgSet (complete_definitions c3Store) "D" "a" = ["q"] := by
  refine ⟨by decide, by decide, by rfl⟩

/-! ### C3: what `complete_definitions` preserves -/

/-- The store relation of the C3 amendment: keys (and their order) are
unchanged and every definition's name-pointer values only grow. -/
def StoreMono (s t : Store) : Prop :=
  t.map Prod.fst = s.map Prod.fst ∧ ∀ m, (npOf s m).values ⊆ (npOf t m).values

theorem storeMono_refl (s : Store) : StoreMono s s :=
  ⟨rfl, fun _ => List.Subset.refl _⟩

theorem storeMono_trans {s t u : Store} (h1 : StoreMono s t) (h2 : StoreMono t u) :
    StoreMono s u :=
  ⟨h2.1.trans h1.1, fun m => (h1.2 m).trans (h2.2 m)⟩

theorem modNP_map_fst (s : Store) (ns : String) (f : NamePtr → NamePtr) :
    (modNP s ns f).map Prod.fst = s.map Prod.fst := by
  induction s with
  | nil => rfl
  | cons p rest ih =>
    show ((if p.1 = ns then (p.1, { p.2 with name_pointer := f p.2.name_pointer }) else p)
      :: modNP rest ns f).map Prod.fst = p.1 :: rest.map Prod.fst
    by_cases h : p.1 = ns
    · simp only [if_pos h, List.map_cons, ih]
    · simp only [if_neg h, List.map_cons, ih]

theorem lookupA_modNP_ne (s : Store) (ns m : String) (f : NamePtr → NamePtr)
    (h : m ≠ ns) : lookupA (modNP s ns f) m = lookupA s m := by
  induction s with
  | nil => rfl
  | cons p rest ih =>
    show lookupA ((if p.1 = ns then (p.1, { p.2 with name_pointer := f p.2.name_pointer })
      else p) :: modNP rest ns f) m = lookupA (p :: rest) m
    by_cases hp : p.1 = ns
    · have hpm : p.1 ≠ m := fun he => h (he.symm.trans hp)
      rw [if_pos hp]
      simp only [lookupA, if_neg hpm]
      exact ih
    · rw [if_neg hp]
      by_cases hm : p.1 = m
      · simp only [lookupA, if_pos hm]
      · simp only [lookupA, if_neg hm]
        exact ih

theorem lookupA_modNP_self (s : Store) (ns : String) (f : NamePtr → NamePtr) :
    lookupA (modNP s ns f) ns =
      (lookupA s ns).map (fun d => { d with name_pointer := f d.name_pointer }) := by
  induction s with
  | nil => rfl
  | cons p rest ih =>
    show lookupA ((if p.1 = ns then (p.1, { p.2 with name_pointer := f p.2.name_pointer })
      else p) :: modNP rest ns f) ns = _
    by_cases hp : p.1 = ns
    · rw [if_pos hp]
      show (if p.1 = ns then some _ else _) = _
      simp only [lookupA, if_pos hp, Option.map_some']
    · rw [if_neg hp]
      show (if p.1 = ns then some p.2 else lookupA (modNP rest ns f) ns) = _
      simp only [lookupA, if_neg hp, ih]

theorem storeMono_modNP (s : Store) (ns : String) (f : NamePtr → NamePtr)
    (hf : ∀ np, np.values ⊆ (f np).values) : StoreMono s (modNP s ns f) := by
  refine ⟨modNP_map_fst s ns f, ?_⟩
  intro m
  by_cases hm : m = ns
  · subst hm
    unfold npOf
    rw [lookupA_modNP_self]
    cases lookupA s m with
    | none => exact List.Subset.refl _
    | some d => exact hf d.name_pointer
  · unfold npOf
    rw [lookupA_modNP_ne s ns m f hm]
    exact List.Subset.refl _

theorem storeMono_foldlSB {α : Type} (step : Store × Bool → α → Store × Bool)
    (h : ∀ acc x, StoreMono acc.1 (step acc x).1) :
    ∀ (l : List α) (acc : Store × Bool), StoreMono acc.1 (l.foldl step acc).1 := by
  intro l
  induction l with
  | nil => intro acc; exact storeMono_refl _
  | cons x rest ih =>
    intro acc
    exact storeMono_trans (h acc x) (ih (step acc x))

theorem values_add_arg (np : NamePtr) (n : String) (i : ArgItem) :
    (np.add_arg n i).values = np.values := rfl

theorem values_add_pos_arg (np : NamePtr) (pos : Nat) (name : Option String)
    (i : ArgItem) : (np.add_pos_arg pos name i).values = np.values := rfl

theorem update_pointsto_args_mono (defs : Store) (calleeNs key callerNs argName : String) :
    StoreMono defs (update_pointsto_args defs calleeNs key callerNs argName).1 := by
  unfold update_pointsto_args
  dsimp only
  split
  · exact storeMono_refl _
  · refine storeMono_foldlSB _ ?_ _ _
    intro acc pa
    dsimp only
    split
    · exact storeMono_refl _
    · split
      · exact storeMono_refl _
      · have hs1 : StoreMono acc.1
            (if pa ∈ getArgSet acc.1 callerNs argName then
              modNP acc.1 callerNs (fun np =>
                let shrunk := (getArgSet acc.1 callerNs argName).erase pa
                { np with args := updA np.args argName shrunk })
            else acc.1) := by
          split
          · exact storeMono_modNP _ _ _ (fun np => List.Subset.refl _)
          · exact storeMono_refl _
        refine storeMono_trans hs1 ?_
        refine storeMono_foldlSB _ ?_ _ _
        intro acc2 item
        dsimp only
        split
        · exact storeMono_refl _
        · exact storeMono_modNP _ _ (fun np => np.add item)
            (fun np => subset_addElem np.values item)

theorem processName_mono (defs : Store) (ns name : String) (changed : Bool) :
    StoreMono defs (processName defs ns name changed).1 := by
  unfold processName
  split
  · exact storeMono_refl _
  · split
    · exact storeMono_refl _
    · refine storeMono_foldlSB _ ?_ _ _
      intro acc argName
      dsimp only
      cases lookupA (npOf acc.1 ns).name_to_pos argName with
      | some pos =>
        dsimp only
        cases hpt : (match lookupA (npOf acc.1 name).pos_to_name pos with
          | some n2 => if n2 = "" then none else lookupA (npOf acc.1 name).args n2
          | none => none : Option (List String)) with
        | none =>
          dsimp only
          exact storeMono_modNP _ _ _
            (fun np => by rw [values_add_pos_arg]; exact List.Subset.refl _)
        | some l =>
          dsimp only
          split
          · exact storeMono_modNP _ _ _
              (fun np => by rw [values_add_pos_arg]; exact List.Subset.refl _)
          · split
            · exact storeMono_refl _
            · exact update_pointsto_args_mono _ _ _ _ _
      | none =>
        dsimp only
        cases lookupA (npOf acc.1 name).args argName with
        | none =>
          dsimp only
          exact storeMono_modNP _ _ _
            (fun np => by rw [values_add_arg]; exact List.Subset.refl _)
        | some l =>
          dsimp only
          split
          · exact storeMono_modNP _ _ _
              (fun np => by rw [values_add_arg]; exact List.Subset.refl _)
          · split
            · exact storeMono_refl _
            · exact update_pointsto_args_mono _ _ _ _ _

theorem processDef_mono (defs : Store) (ns : String) (changed : Bool) :
    StoreMono defs (processDef defs ns changed).1 := by
  unfold processDef
  refine storeMono_foldlSB _ ?_ _ _
  intro acc name
  exact processName_mono acc.1 ns name acc.2

theorem passOnce_mono (defs : Store) : StoreMono defs (passOnce defs).1 := by
  unfold passOnce
  refine storeMono_foldlSB _ ?_ _ _
  intro acc ns
  exact processDef_mono acc.1 ns acc.2

theorem completeDefsGo_mono (n : Nat) (defs : Store) :
    StoreMono defs (completeDefsGo n defs) := by
  induction n generalizing defs with
  | zero => exact storeMono_refl _
  | succ n ih =>
    show StoreMono defs (let p := passOnce defs; if p.2 then completeDefsGo n p.1 else p.1)
    dsimp only
    split
    · exact storeMono_trans (passOnce_mono defs) (ih (passOnce defs).1)
    · exact passOnce_mono defs

/-- C3 (amended): a run of `complete_definitions` never deletes a definition
(the store's keys, in order, are unchanged) and never removes an element from
any name pointer's values (values only grow).  Argument sets, however, can
shrink: the cycle guard `arg.remove(pointsto_arg)` removes a pointed-to
target from the incoming argument set, as the counterexample shows. -/
theorem complete_definitions_monotone (defs : Store) (ns : String) :
    (complete_definitions defs).map Prod.fst = defs.map Prod.fst ∧
    valuesOfStore defs ns ⊆ valuesOfStore (complete_definitions defs) ns := by
  have h := completeDefsGo_mono defs.length defs
  exact ⟨h.1, h.2 ns⟩

end PyCG
